import Mathlib

/-!
Verification of the chunking/ingestion pipeline and the retrieval/answer
assembly of the Chat repository (src/api/chat.py, src/api/upload.py,
src/utils/upload_to_qdrant.py).

Text is modelled as `List Char` (Python `str`, one element per code point).
External collaborators (OpenAI embedding / completion, Qdrant, Pinecone)
are modelled as oracle functions passed in as parameters: an embedding
call returns `Option` (None on any provider/transport error, exactly as
`get_embedding` converts exceptions to `None`), an upsert call's outcome
is a `Bool` indexed by the call number within the run, and `uuid.uuid4()`
is a supply of ids indexed by how many points the run has created so far.
-/

/-- Python whitespace test used by `str.strip()`, restricted to the ASCII
whitespace characters (space, tab, newline, carriage return, vertical tab,
form feed).  Python also strips some further Unicode space characters;
none of the verified properties depend on those. -/
def pySpace (c : Char) : Bool :=
  c = ' ' || c = '\t' || c = '\n' || c = '\r' || c = '\x0b' || c = '\x0c'

/-- Python `s.strip()`: drop whitespace from the front, then from the back. -/
def pyStrip (s : List Char) : List Char :=
  ((s.dropWhile pySpace).reverse.dropWhile pySpace).reverse

/-- Boolean test that `s` begins with `sep` (Python slice comparison used
implicitly by `str.split` scanning). -/
def beginsWith : List Char → List Char → Bool
  | [], _ => true
  | _ :: _, [] => false
  | a :: sep, b :: s => a == b && beginsWith sep s

/-- Python's substring test `sep in s`: some position of `s` begins with `sep`. -/
def containsSub (sep : List Char) : List Char → Bool
  | [] => beginsWith sep []
  | c :: rest => beginsWith sep (c :: rest) || containsSub sep rest

/-- Cons a character onto the first part of a split-in-progress. -/
def consHead (c : Char) : List (List Char) → List (List Char)
  | [] => [[c]]
  | p :: ps => (c :: p) :: ps

/-- Recursion core of Python `s.split(sep)`: scan left to right, cutting at
every (non-overlapping) occurrence of `sep`; empty parts are kept.  The
`fuel` argument only makes the recursion structural; every match consumes
at least one character, so `fuel = s.length` always suffices. -/
def splitOnAux (sep : List Char) : Nat → List Char → List (List Char)
  | _, [] => [[]]
  | 0, c :: rest => [c :: rest]
  | fuel + 1, c :: rest =>
    if sep ≠ [] ∧ beginsWith sep (c :: rest) then
      [] :: splitOnAux sep fuel (List.drop (sep.length - 1) rest)
    else
      consHead c (splitOnAux sep fuel rest)

/-- Python `s.split(sep)` for a non-empty separator.  For `sep = []`
(never used by the source, Python would raise) the input is returned whole. -/
def splitOnList (sep s : List Char) : List (List Char) :=
  splitOnAux sep s.length s

/-- Recursion core of the fixed-width slicing; `fuel = s.length` suffices
for any positive window size `n`. -/
def chunkEveryAux (n : Nat) : Nat → List Char → List (List Char)
  | _, [] => []
  | 0, c :: rest => [c :: rest]
  | fuel + 1, c :: rest => (c :: rest).take n :: chunkEveryAux n fuel ((c :: rest).drop n)

/-- Fixed-width slicing `[text[i:i+n] for i in range(0, len(text), n)]`
(src/api/upload.py lines 129-131, src/utils/upload_to_qdrant.py lines
133-135).  The source only calls it with `n = 1000`; `n = 0` (which would
raise in Python) is mapped to the empty result. -/
def chunkEvery (n : Nat) (s : List Char) : List (List Char) :=
  if n == 0 then [] else chunkEveryAux n s.length s

/-- Literal separator `"\n\n---\n\n"` of the first cascade rule. -/
def SEP1 : List Char := "\n\n---\n\n".data

/-- Literal separator `"\n\n"` of the second cascade rule. -/
def SEP2 : List Char := "\n\n".data

/-- Delimiter-cascade chunking of src/api/upload.py lines 122-131 (the
identical logic appears in src/utils/upload_to_qdrant.py lines 126-135):
split on `"\n\n---\n\n"` if it occurs, else on `"\n\n"` if it occurs, else
slice into windows of 1000 characters. -/
def rawChunks (text : List Char) : List (List Char) :=
  if containsSub SEP1 text then splitOnList SEP1 text
  else if containsSub SEP2 text then splitOnList SEP2 text
  else chunkEvery 1000 text

/-- Post-filter of src/api/upload.py line 134 (identical in
src/utils/upload_to_qdrant.py line 151):
`[chunk.strip() for chunk in chunks if chunk.strip() and len(chunk.strip()) > 50]`. -/
def filterChunks (cs : List (List Char)) : List (List Char) :=
  cs.filterMap (fun ch =>
    let t := pyStrip ch
    if t ≠ [] ∧ 50 < t.length then some t else none)

/-- Whole chunker: cascade split followed by the strip-and-length filter. -/
def chunkPipeline (text : List Char) : List (List Char) :=
  filterChunks (rawChunks text)

example : rawChunks "aa\n\n---\n\nbb\n\ncc".data = ["aa".data, "bb\n\ncc".data] := by decide

example : rawChunks "aa\n\nbb".data = ["aa".data, "bb".data] := by decide

example : chunkPipeline "ab\n\ncd".data = [] := by decide

/-- Python `sep.join(parts)` (used with `"\n\n"` when assembling the chat
context, and as the inverse of `split` in the split-correctness lemmas). -/
def joinSep (sep : List Char) : List (List Char) → List Char
  | [] => []
  | [p] => p
  | p :: q :: ps => p ++ sep ++ joinSep sep (q :: ps)

theorem dropWhile_nil_of_all {p : Char → Bool} :
    ∀ {s : List Char}, (∀ c ∈ s, p c = true) → s.dropWhile p = [] := by
  intro s h
  induction s with
  | nil => rfl
  | cons a l ih =>
    rw [List.dropWhile_cons_of_pos (h a (by simp))]
    exact ih (fun c hc => h c (by simp [hc]))

theorem dropWhile_twice (p : Char → Bool) (l : List Char) :
    (l.dropWhile p).dropWhile p = l.dropWhile p := by
  induction l with
  | nil => rfl
  | cons a l ih =>
    by_cases hp : p a
    · rw [List.dropWhile_cons_of_pos hp]; exact ih
    · rw [List.dropWhile_cons_of_neg hp, List.dropWhile_cons_of_neg hp]

theorem dropWhile_suffix_of (p : Char → Bool) (l : List Char) :
    ∃ w, w ++ l.dropWhile p = l := by
  induction l with
  | nil => exact ⟨[], rfl⟩
  | cons a l ih =>
    by_cases hp : p a
    · obtain ⟨w, hw⟩ := ih
      exact ⟨a :: w, by rw [List.dropWhile_cons_of_pos hp, List.cons_append, hw]⟩
    · exact ⟨[], by rw [List.dropWhile_cons_of_neg hp, List.nil_append]⟩

theorem pyStrip_nil_of_space {s : List Char} (h : ∀ c ∈ s, pySpace c = true) :
    pyStrip s = [] := by
  unfold pyStrip
  rw [dropWhile_nil_of_all h]
  rfl

theorem length_dropWhile_le' (p : Char → Bool) :
    ∀ l : List Char, (l.dropWhile p).length ≤ l.length := by
  intro l
  induction l with
  | nil => simp
  | cons a l ih =>
    by_cases hp : p a
    · rw [List.dropWhile_cons_of_pos hp]; simp only [List.length_cons]; omega
    · rw [List.dropWhile_cons_of_neg hp]

theorem pyStrip_head_not_space {s : List Char} {x : Char} {t : List Char}
    (h : s.dropWhile pySpace = x :: t) : pySpace x = false := by
  by_contra hpx
  have hx : pySpace x = true := by
    cases hb : pySpace x with
    | false => exact absurd hb hpx
    | true => rfl
  have h2 := dropWhile_twice pySpace s
  rw [h, List.dropWhile_cons_of_pos hx] at h2
  have hlen : (List.dropWhile pySpace t).length ≤ t.length := length_dropWhile_le' pySpace t
  rw [h2] at hlen
  simp only [List.length_cons] at hlen
  omega

theorem pyStrip_idem (s : List Char) : pyStrip (pyStrip s) = pyStrip s := by
  unfold pyStrip
  have key : (((s.dropWhile pySpace).reverse.dropWhile pySpace).reverse).dropWhile pySpace
      = ((s.dropWhile pySpace).reverse.dropWhile pySpace).reverse := by
    cases hu : s.dropWhile pySpace with
    | nil => simp
    | cons x xs =>
      have hx : pySpace x = false := pyStrip_head_not_space hu
      obtain ⟨w, hw⟩ := dropWhile_suffix_of pySpace (x :: xs).reverse
      cases ht : ((x :: xs).reverse.dropWhile pySpace).reverse with
      | nil => simp
      | cons y ys =>
        have hyx : y = x := by
          have h1 : (x :: xs).reverse.reverse = ((x :: xs).reverse.dropWhile pySpace).reverse ++ w.reverse := by
            rw [← List.reverse_append, hw]
          rw [List.reverse_reverse, ht] at h1
          simp only [List.cons_append] at h1
          exact (List.cons.injEq .. ▸ h1).1.symm
        rw [List.dropWhile_cons_of_neg (by rw [hyx, hx]; simp)]
  rw [key, List.reverse_reverse, dropWhile_twice]

theorem beginsWith_append_drop : ∀ (sep s : List Char), beginsWith sep s = true →
    sep ++ List.drop sep.length s = s := by
  intro sep
  induction sep with
  | nil => intro s _; simp
  | cons a sep ih =>
    intro s hb
    cases s with
    | nil => simp [beginsWith] at hb
    | cons b s =>
      simp only [beginsWith, Bool.and_eq_true, beq_iff_eq] at hb
      simp only [List.length_cons, List.drop_succ_cons, List.cons_append, hb.1]
      rw [ih s hb.2]

theorem beginsWith_extend : ∀ (sep p t : List Char), beginsWith sep p = true →
    beginsWith sep (p ++ t) = true := by
  intro sep
  induction sep with
  | nil => intro p t _; rfl
  | cons a sep ih =>
    intro p t hb
    cases p with
    | nil => simp [beginsWith] at hb
    | cons b p =>
      simp only [beginsWith, Bool.and_eq_true, beq_iff_eq] at hb
      simp only [List.cons_append, beginsWith, Bool.and_eq_true, beq_iff_eq]
      exact ⟨hb.1, ih p t hb.2⟩

theorem joinSep_consHead (sep : List Char) (c : Char) :
    ∀ L : List (List Char), L ≠ [] → joinSep sep (consHead c L) = c :: joinSep sep L := by
  intro L hL
  match L with
  | [] => exact absurd rfl hL
  | [p] => rfl
  | p :: q :: ps => simp [consHead, joinSep, List.cons_append]

theorem splitOnAux_shape (sep : List Char) :
    ∀ (fuel : Nat) (s : List Char), s.length ≤ fuel →
      ∃ p ps, splitOnAux sep fuel s = p :: ps ∧ ∃ t, p ++ t = s := by
  intro fuel
  induction fuel with
  | zero =>
    intro s hs
    have : s = [] := List.length_eq_zero.mp (Nat.le_zero.mp hs)
    subst this
    exact ⟨[], [], rfl, [], rfl⟩
  | succ fuel ih =>
    intro s hs
    cases s with
    | nil => exact ⟨[], [], rfl, [], rfl⟩
    | cons c rest =>
      simp only [List.length_cons, Nat.succ_le_succ_iff] at hs
      by_cases hb : sep ≠ [] ∧ beginsWith sep (c :: rest) = true
      · refine ⟨[], splitOnAux sep fuel (List.drop (sep.length - 1) rest), ?_, c :: rest, rfl⟩
        simp [splitOnAux, hb.1, hb.2]
      · obtain ⟨p, ps, hrec, t, ht⟩ := ih rest hs
        refine ⟨c :: p, ps, ?_, t, by rw [List.cons_append, ht]⟩
        simp only [splitOnAux, if_neg hb, hrec, consHead]

theorem splitOnAux_join (sep : List Char) (hsep : sep ≠ []) :
    ∀ (fuel : Nat) (s : List Char), s.length ≤ fuel →
      joinSep sep (splitOnAux sep fuel s) = s := by
  intro fuel
  induction fuel with
  | zero =>
    intro s hs
    have : s = [] := List.length_eq_zero.mp (Nat.le_zero.mp hs)
    subst this
    rfl
  | succ fuel ih =>
    intro s hs
    cases s with
    | nil => rfl
    | cons c rest =>
      simp only [List.length_cons, Nat.succ_le_succ_iff] at hs
      by_cases hb : sep ≠ [] ∧ beginsWith sep (c :: rest) = true
      · have hdlen : (List.drop (sep.length - 1) rest).length ≤ fuel := by
          simp only [List.length_drop]; omega
        obtain ⟨p, ps, hrec, _, _⟩ := splitOnAux_shape sep fuel _ hdlen
        have hjoin : joinSep sep ([] :: splitOnAux sep fuel (List.drop (sep.length - 1) rest))
            = sep ++ joinSep sep (splitOnAux sep fuel (List.drop (sep.length - 1) rest)) := by
          rw [hrec]; simp [joinSep]
        rw [splitOnAux, if_pos hb, hjoin, ih _ hdlen]
        obtain ⟨a, sep', hsep'⟩ : ∃ a sep', sep = a :: sep' := by
          cases sep with
          | nil => exact absurd rfl hsep
          | cons a sep' => exact ⟨a, sep', rfl⟩
        have := beginsWith_append_drop sep (c :: rest) hb.2
        rw [hsep'] at this ⊢
        simp only [List.length_cons, Nat.succ_sub_one, List.drop_succ_cons] at this ⊢
        exact this
      · obtain ⟨p, ps, hrec, _, _⟩ := splitOnAux_shape sep fuel rest hs
        rw [splitOnAux, if_neg hb, joinSep_consHead sep c _ (by rw [hrec]; simp), ih rest hs]

theorem splitOnAux_not_contains (sep : List Char) (hsep : sep ≠ []) :
    ∀ (fuel : Nat) (s : List Char), s.length ≤ fuel →
      ∀ p ∈ splitOnAux sep fuel s, containsSub sep p = false := by
  have hnil : containsSub sep [] = false := by
    cases sep with
    | nil => exact absurd rfl hsep
    | cons a sep' => rfl
  intro fuel
  induction fuel with
  | zero =>
    intro s hs
    have : s = [] := List.length_eq_zero.mp (Nat.le_zero.mp hs)
    subst this
    intro p hp
    simp only [splitOnAux, List.mem_singleton] at hp
    subst hp
    exact hnil
  | succ fuel ih =>
    intro s hs
    cases s with
    | nil =>
      intro p hp
      simp only [splitOnAux, List.mem_singleton] at hp
      subst hp
      exact hnil
    | cons c rest =>
      simp only [List.length_cons, Nat.succ_le_succ_iff] at hs
      by_cases hb : sep ≠ [] ∧ beginsWith sep (c :: rest) = true
      · intro p hp
        rw [splitOnAux, if_pos hb] at hp
        have hdlen : (List.drop (sep.length - 1) rest).length ≤ fuel := by
          simp only [List.length_drop]; omega
        rcases List.mem_cons.mp hp with h | h
        · subst h; exact hnil
        · exact ih _ hdlen p h
      · intro p hp
        rw [splitOnAux, if_neg hb] at hp
        obtain ⟨q, qs, hrec, t, ht⟩ := splitOnAux_shape sep fuel rest hs
        rw [hrec] at hp
        simp only [consHead] at hp
        have hbfalse : beginsWith sep (c :: rest) = false := by
          cases hbb : beginsWith sep (c :: rest) with
          | false => rfl
          | true => exact absurd ⟨hsep, hbb⟩ hb
        rcases List.mem_cons.mp hp with h | h
        · subst h
          have hq : containsSub sep q = false := ih rest hs q (by rw [hrec]; simp)
          have hbq : beginsWith sep (c :: q) = false := by
            cases hbb : beginsWith sep (c :: q) with
            | false => rfl
            | true =>
              have := beginsWith_extend sep (c :: q) t hbb
              rw [List.cons_append, ht] at this
              rw [this] at hbfalse
              exact absurd hbfalse (by simp)
          simp [containsSub, hbq, hq]
        · exact ih rest hs p (by rw [hrec]; simp [h])

theorem splitOnAux_chars (sep : List Char) :
    ∀ (fuel : Nat) (s : List Char), ∀ p ∈ splitOnAux sep fuel s, ∀ x ∈ p, x ∈ s := by
  intro fuel
  induction fuel with
  | zero =>
    intro s p hp x hx
    cases s with
    | nil => simp only [splitOnAux, List.mem_singleton] at hp; subst hp; simp at hx
    | cons c rest => simp only [splitOnAux, List.mem_singleton] at hp; subst hp; exact hx
  | succ fuel ih =>
    intro s p hp x hx
    cases s with
    | nil => simp only [splitOnAux, List.mem_singleton] at hp; subst hp; simp at hx
    | cons c rest =>
      by_cases hb : sep ≠ [] ∧ beginsWith sep (c :: rest) = true
      · rw [splitOnAux, if_pos hb] at hp
        rcases List.mem_cons.mp hp with h | h
        · subst h; simp at hx
        · have hxdrop := ih _ p h x hx
          have hsub : List.drop (sep.length - 1) rest ⊆ rest := List.drop_subset _ rest
          exact List.mem_cons_of_mem c (hsub hxdrop)
      · rw [splitOnAux, if_neg hb] at hp
        cases hrec : splitOnAux sep fuel rest with
        | nil =>
          rw [hrec] at hp
          simp only [consHead, List.mem_singleton] at hp
          subst hp
          simp only [List.mem_singleton] at hx
          subst hx
          simp
        | cons q qs =>
          rw [hrec] at hp
          simp only [consHead] at hp
          rcases List.mem_cons.mp hp with h | h
          · subst h
            rcases List.mem_cons.mp hx with h | h
            · subst h; simp
            · exact List.mem_cons_of_mem c (ih rest q (by rw [hrec]; simp) x h)
          · exact List.mem_cons_of_mem c (ih rest p (by rw [hrec]; simp [h]) x hx)

theorem splitOnList_join (sep : List Char) (hsep : sep ≠ []) (s : List Char) :
    joinSep sep (splitOnList sep s) = s :=
  splitOnAux_join sep hsep s.length s (Nat.le_refl _)

theorem splitOnList_not_contains (sep : List Char) (hsep : sep ≠ []) (s : List Char) :
    ∀ p ∈ splitOnList sep s, containsSub sep p = false :=
  splitOnAux_not_contains sep hsep s.length s (Nat.le_refl _)

theorem splitOnList_chars (sep s : List Char) :
    ∀ p ∈ splitOnList sep s, ∀ x ∈ p, x ∈ s :=
  splitOnAux_chars sep s.length s

theorem chunkEveryAux_nil (n fuel : Nat) : chunkEveryAux n fuel [] = [] := by
  cases fuel <;> rfl

theorem chunkEveryAux_cons (n fuel : Nat) (s : List Char) (hs : s ≠ []) :
    chunkEveryAux n (fuel + 1) s = s.take n :: chunkEveryAux n fuel (s.drop n) := by
  cases s with
  | nil => exact absurd rfl hs
  | cons c rest => rfl

theorem chunkEveryAux_chars (n : Nat) :
    ∀ (fuel : Nat) (s : List Char), ∀ p ∈ chunkEveryAux n fuel s, ∀ x ∈ p, x ∈ s := by
  intro fuel
  induction fuel with
  | zero =>
    intro s p hp x hx
    cases s with
    | nil => simp [chunkEveryAux] at hp
    | cons c rest =>
      simp only [chunkEveryAux, List.mem_singleton] at hp
      subst hp
      exact hx
  | succ fuel ih =>
    intro s p hp x hx
    cases s with
    | nil => simp [chunkEveryAux] at hp
    | cons c rest =>
      rw [chunkEveryAux_cons n fuel _ (by simp)] at hp
      rcases List.mem_cons.mp hp with h | h
      · subst h
        exact List.take_subset n (c :: rest) hx
      · exact List.drop_subset n (c :: rest) (ih _ p h x hx)

theorem rawChunks_chars (text : List Char) :
    ∀ p ∈ rawChunks text, ∀ x ∈ p, x ∈ text := by
  intro p hp x hx
  unfold rawChunks at hp
  by_cases h1 : containsSub SEP1 text
  · rw [if_pos h1] at hp
    exact splitOnList_chars SEP1 text p hp x hx
  · rw [if_neg h1] at hp
    by_cases h2 : containsSub SEP2 text
    · rw [if_pos h2] at hp
      exact splitOnList_chars SEP2 text p hp x hx
    · rw [if_neg h2] at hp
      unfold chunkEvery at hp
      simp only [Nat.reduceBEq, Bool.false_eq_true, if_false] at hp
      exact chunkEveryAux_chars 1000 text.length text p hp x hx

theorem filterMap_sublist_map {α β : Type} (f : α → Option β) (g : α → β)
    (h : ∀ a b, f a = some b → b = g a) :
    ∀ l : List α, List.Sublist (l.filterMap f) (l.map g) := by
  intro l
  induction l with
  | nil => simp
  | cons a l ih =>
    rw [List.map_cons]
    cases hfa : f a with
    | none =>
      simp only [List.filterMap_cons, hfa]
      exact List.Sublist.cons (g a) ih
    | some b =>
      simp only [List.filterMap_cons, hfa, h a b hfa]
      exact List.Sublist.cons₂ (g a) ih

theorem containsSub_replicate_ne (a c : Char) (h : (a == c) = false) (cs : List Char) :
    ∀ n : Nat, containsSub (a :: cs) (List.replicate n c) = false := by
  intro n
  induction n with
  | zero => rfl
  | succ n ih =>
    rw [List.replicate_succ]
    simp only [containsSub, beginsWith, h, Bool.false_and, Bool.false_or]
    exact ih

/-- C6: the chunker's delimiter cascade is first-match-wins: whenever the
literal separator `"\n\n---\n\n"` occurs in the text, the text is split on
every occurrence of exactly that separator (joining the parts with it
recovers the text and no part still contains it), even when `"\n\n"` also
occurs; `"\n\n"` is the splitting separator only when the longer separator
is absent. -/
theorem C6_delimiter_precedence : ∀ text : List Char,
    (containsSub SEP1 text = true →
      rawChunks text = splitOnList SEP1 text
      ∧ joinSep SEP1 (splitOnList SEP1 text) = text
      ∧ ∀ p ∈ splitOnList SEP1 text, containsSub SEP1 p = false)
    ∧ (containsSub SEP1 text = false → containsSub SEP2 text = true →
      rawChunks text = splitOnList SEP2 text
      ∧ joinSep SEP2 (splitOnList SEP2 text) = text
      ∧ ∀ p ∈ splitOnList SEP2 text, containsSub SEP2 p = false) := by
  intro text
  constructor
  · intro h1
    refine ⟨?_, splitOnList_join SEP1 (by decide) text,
      splitOnList_not_contains SEP1 (by decide) text⟩
    unfold rawChunks
    rw [if_pos h1]
  · intro h1 h2
    refine ⟨?_, splitOnList_join SEP2 (by decide) text,
      splitOnList_not_contains SEP2 (by decide) text⟩
    unfold rawChunks
    rw [if_neg (by rw [h1]; simp), if_pos h2]

/-- Witness for C6 at concrete inputs: a text containing both separators is
split on `"\n\n---\n\n"` only, and a text containing only `"\n\n"` is split
on `"\n\n"`. -/
theorem C6_delimiter_precedence_witness :
    (containsSub SEP1 "aa\n\n---\n\nbb\n\ncc".data = true
      ∧ (rawChunks "aa\n\n---\n\nbb\n\ncc".data = splitOnList SEP1 "aa\n\n---\n\nbb\n\ncc".data
        ∧ joinSep SEP1 (splitOnList SEP1 "aa\n\n---\n\nbb\n\ncc".data) = "aa\n\n---\n\nbb\n\ncc".data
        ∧ ∀ p ∈ splitOnList SEP1 "aa\n\n---\n\nbb\n\ncc".data, containsSub SEP1 p = false))
    ∧ (containsSub SEP1 "aa\n\nbb".data = false ∧ containsSub SEP2 "aa\n\nbb".data = true
      ∧ rawChunks "aa\n\nbb".data = splitOnList SEP2 "aa\n\nbb".data) :=
  ⟨⟨by decide, (C6_delimiter_precedence "aa\n\n---\n\nbb\n\ncc".data).1 (by decide)⟩,
   ⟨by decide, by decide,
    ((C6_delimiter_precedence "aa\n\nbb".data).2 (by decide) (by decide)).1⟩⟩

/-- C7: every chunk the chunker outputs is already stripped and has length
strictly greater than 50; the output is (order-preservingly) a sub-sequence
of the stripped raw segments; and an input consisting only of whitespace
characters (in particular the empty input) yields the empty chunk list. -/
theorem C7_chunk_filter : ∀ text : List Char,
    (∀ c ∈ chunkPipeline text, pyStrip c = c ∧ 50 < c.length)
    ∧ List.Sublist (chunkPipeline text) ((rawChunks text).map pyStrip)
    ∧ ((∀ c ∈ text, pySpace c = true) → chunkPipeline text = []) := by
  intro text
  refine ⟨?_, ?_, ?_⟩
  · intro c hc
    unfold chunkPipeline filterChunks at hc
    rw [List.mem_filterMap] at hc
    obtain ⟨ch, _, hch⟩ := hc
    simp only at hch
    by_cases hcond : pyStrip ch ≠ [] ∧ 50 < (pyStrip ch).length
    · rw [if_pos hcond] at hch
      obtain rfl := Option.some.injEq .. ▸ hch
      exact ⟨pyStrip_idem ch, hcond.2⟩
    · rw [if_neg hcond] at hch
      exact absurd hch (by simp)
  · unfold chunkPipeline filterChunks
    refine filterMap_sublist_map _ pyStrip ?_ (rawChunks text)
    intro a b hab
    simp only at hab
    by_cases hcond : pyStrip a ≠ [] ∧ 50 < (pyStrip a).length
    · rw [if_pos hcond] at hab
      exact (Option.some.injEq .. ▸ hab).symm
    · rw [if_neg hcond] at hab
      exact absurd hab (by simp)
  · intro hspace
    unfold chunkPipeline filterChunks
    rw [List.filterMap_eq_nil_iff]
    intro p hp
    have hall : ∀ c ∈ p, pySpace c = true :=
      fun c hc => hspace c (rawChunks_chars text p hp c hc)
    simp only [pyStrip_nil_of_space hall]
    simp

/-- Witness for C7: a whitespace-only input (containing `"\n\n"`, so the
second cascade rule fires) produces the empty chunk sequence. -/
theorem C7_chunk_filter_witness :
    (∀ c ∈ (" \n\n \n ".data : List Char), pySpace c = true)
    ∧ chunkPipeline " \n\n \n ".data = [] :=
  ⟨by decide, (C7_chunk_filter " \n\n \n ".data).2.2 (by decide)⟩

/-- C9: on a 2500-character text containing neither separator, the chunker's
raw stage produces exactly the three consecutive non-overlapping windows of
lengths 1000, 1000 and 500, in input order (their concatenation is the
input). -/
theorem C9_fixed_width_slicing : ∀ text : List Char, text.length = 2500 →
    containsSub SEP1 text = false → containsSub SEP2 text = false →
    rawChunks text = [text.take 1000, (text.drop 1000).take 1000, text.drop 2000]
    ∧ (rawChunks text).map List.length = [1000, 1000, 500]
    ∧ (rawChunks text).flatten = text := by
  intro text hlen h1 h2
  have hne : text ≠ [] := by
    intro h
    rw [h] at hlen
    simp at hlen
  have hraw : rawChunks text = chunkEveryAux 1000 2500 text := by
    unfold rawChunks chunkEvery
    rw [if_neg (by rw [h1]; simp), if_neg (by rw [h2]; simp), if_neg (by simp), hlen]
  have hd1 : (text.drop 1000).length = 1500 := by simp [hlen]
  have hd2 : (text.drop 2000).length = 500 := by simp [hlen]
  have hdd : (text.drop 1000).drop 1000 = text.drop 2000 := by
    rw [List.drop_drop]
  have hdnil : (text.drop 2000).drop 1000 = [] := by
    rw [List.drop_drop]
    exact List.drop_eq_nil_of_le (by omega)
  have hstep : rawChunks text = [text.take 1000, (text.drop 1000).take 1000, text.drop 2000] := by
    rw [hraw]
    rw [show (2500 : Nat) = 2499 + 1 from rfl, chunkEveryAux_cons 1000 2499 text hne]
    rw [show (2499 : Nat) = 2498 + 1 from rfl,
      chunkEveryAux_cons 1000 2498 (text.drop 1000) (by intro h; rw [h] at hd1; simp at hd1)]
    rw [hdd]
    rw [show (2498 : Nat) = 2497 + 1 from rfl,
      chunkEveryAux_cons 1000 2497 (text.drop 2000) (by intro h; rw [h] at hd2; simp at hd2)]
    rw [hdnil, chunkEveryAux_nil]
    have htake : (text.drop 2000).take 1000 = text.drop 2000 :=
      List.take_of_length_le (by rw [hd2]; omega)
    rw [htake]
  refine ⟨hstep, ?_, ?_⟩
  · rw [hstep]
    simp only [List.map_cons, List.map_nil, List.length_take, hd2, List.length_drop, hlen,
      hd1 ▸ List.length_take 1000 (text.drop 1000)]
    norm_num
  · rw [hstep]
    simp only [List.flatten_cons, List.flatten_nil, List.append_nil]
    rw [← hdd, List.take_append_drop, List.take_append_drop]

/-- Witness for C9: 2500 copies of the letter a contain no separator, and
slice into windows of 1000, 1000 and 500 characters. -/
theorem C9_fixed_width_slicing_witness :
    (List.replicate 2500 'a').length = 2500
    ∧ containsSub SEP1 (List.replicate 2500 'a') = false
    ∧ containsSub SEP2 (List.replicate 2500 'a') = false
    ∧ (rawChunks (List.replicate 2500 'a')).map List.length = [1000, 1000, 500] :=
  have hs1 : containsSub SEP1 (List.replicate 2500 'a') = false := by
    rw [show SEP1 = '\n' :: "\n---\n\n".data from rfl]
    exact containsSub_replicate_ne '\n' 'a' (by decide) _ 2500
  have hs2 : containsSub SEP2 (List.replicate 2500 'a') = false := by
    rw [show SEP2 = '\n' :: "\n".data from rfl]
    exact containsSub_replicate_ne '\n' 'a' (by decide) _ 2500
  ⟨List.length_replicate 2500 'a', hs1, hs2,
   (C9_fixed_width_slicing (List.replicate 2500 'a') (List.length_replicate 2500 'a') hs1 hs2).2.1⟩

/-!
Query path of src/api/chat.py.  `hasIndex` models whether the module-level
`index = pinecone.Index(INDEX_NAME)` succeeded (the except sets it to
`None`); `embed` models `get_embedding` (None on any provider error);
`storeQuery` models `index.query(...)` returning the texts of the matches
or raising (`Except.error`); `complete` models
`openai.ChatCompletion.create` returning the generated text or raising.
The second component of `generate_response` / `chatRoute` records the list
of prompts sent to the completion model during the request, so that
theorems can talk about whether the completion model was invoked. -/

/-- Fixed fallback string of `generate_response` (src/api/chat.py line 97),
returned when the completion call raises. -/
def apology : List Char :=
  "I\x27m sorry, I encountered an error while processing your question. Please try again.".data

/-- Prompt built by `generate_response` (src/api/chat.py lines 69-82); the
context and the query are interpolated into the fixed template. -/
def promptOf (context query : List Char) : List Char :=
  "You are a helpful assistant that answers questions based on the provided context.\n        \nContext:\n".data
    ++ context
    ++ "\n\nQuestion: ".data
    ++ query
    ++ "\n\nInstructions:\n- Answer the question based on the provided context\n- If the context doesn\x27t contain relevant information, say so politely\n- Be concise but informative\n- Maintain a friendly, professional tone\n\nAnswer:".data

/-- generate_response (src/api/chat.py lines 64-97): joins the first 3
context chunks with a blank line, builds the prompt, calls the completion
model, strips its answer; any exception yields the fixed apology. -/
def generate_response (complete : List Char → Option (List Char))
    (query : List Char) (contextChunks : List (List Char)) :
    List Char × List (List Char) :=
  let context := joinSep SEP2 (contextChunks.take 3)
  let prompt := promptOf context query
  match complete prompt with
  | some text => (pyStrip text, [prompt])
  | none => (apology, [prompt])

/-- search_similar_chunks (src/api/chat.py lines 43-62): empty result when
the index handle is None, when the query embedding is None or empty
(`if not query_embedding`), or when the store query raises; otherwise the
texts of the matches. -/
def search_similar_chunks (hasIndex : Bool) (embed : List Char → Option (List Int))
    (storeQuery : List Int → Nat → Except (List Char) (List (List Char)))
    (query : List Char) (topK : Nat) : List (List Char) :=
  if hasIndex = false then []
  else
    match embed query with
    | none => []
    | some v =>
      if v = [] then []
      else
        match storeQuery v topK with
        | .error _ => []
        | .ok texts => texts

/-- Response of the /api/chat endpoint: the JSON body on success, or an
error message with an HTTP status code. -/
inductive ChatResp where
  | ok (response : List Char) (sources_used : Nat)
  | err (msg : List Char) (code : Nat)
deriving DecidableEq, Repr

/-- chat endpoint (src/api/chat.py lines 99-123).  `message` is `none` when
the request body is missing or has no `message` key.  The second component
is the list of prompts sent to the completion model while handling the
request. -/
def chatRoute (hasIndex : Bool) (embed : List Char → Option (List Int))
    (storeQuery : List Int → Nat → Except (List Char) (List (List Char)))
    (complete : List Char → Option (List Char))
    (message : Option (List Char)) : ChatResp × List (List Char) :=
  match message with
  | none => (.err "No message provided".data 400, [])
  | some m =>
    let userMessage := pyStrip m
    if userMessage = [] then (.err "Empty message".data 400, [])
    else
      let contextChunks := search_similar_chunks hasIndex embed storeQuery userMessage 5
      let (resp, calls) := generate_response complete userMessage contextChunks
      (.ok resp contextChunks.length, calls)

set_option maxRecDepth 40000 in
/-- C1 is false on the code: with the index connected, a failing embedding
call, and a completion model that answers "Hello there.", the chat endpoint
invokes the completion model (one prompt, with empty context, is sent) and
returns the model's text, not the fixed apology. -/
theorem C1_counterexample :
    chatRoute true (fun _ => none) (fun _ _ => .ok []) (fun _ => some "Hello there.".data)
        (some "hi".data)
      = (.ok "Hello there.".data 0, [promptOf [] "hi".data])
    ∧ "Hello there.".data ≠ apology := by decide

/-- C1 amended: when the query embedding call fails, `search_similar_chunks`
swallows the failure and returns no chunks; the completion model is still
invoked, with empty context; the caller receives the model's (stripped)
answer, or the fixed apology only if the completion call itself also fails.
In every case the response is a structured 200 result with
`sources_used = 0`; the backend error never reaches the caller. -/
theorem C1_embed_failure_fallback :
    ∀ (embed : List Char → Option (List Int))
      (storeQuery : List Int → Nat → Except (List Char) (List (List Char)))
      (complete : List Char → Option (List Char)) (m : List Char),
      embed (pyStrip m) = none → pyStrip m ≠ [] →
      chatRoute true embed storeQuery complete (some m)
        = (.ok (match complete (promptOf [] (pyStrip m)) with
                | some t => pyStrip t
                | none => apology) 0,
           [promptOf [] (pyStrip m)]) := by
  intro embed storeQuery complete m hembed hm
  simp only [chatRoute, search_similar_chunks, generate_response, if_neg hm, hembed]
  simp only [List.take_nil, joinSep, List.length_nil]
  cases hc : complete (promptOf [] (pyStrip m)) with
  | none => simp
  | some t => simp

/-- Witness for C1 (amended) at concrete oracles: embedding fails,
completion also fails, and the endpoint answers with the apology and
`sources_used = 0`. -/
theorem C1_embed_failure_fallback_witness :
    ((fun _ : List Char => (none : Option (List Int))) (pyStrip "hi".data) = none)
    ∧ pyStrip "hi".data ≠ []
    ∧ chatRoute true (fun _ => none) (fun _ _ => .ok []) (fun _ => none) (some "hi".data)
        = (.ok (match (fun _ : List Char => (none : Option (List Char)))
                    (promptOf [] (pyStrip "hi".data)) with
                | some t => pyStrip t
                | none => apology) 0,
           [promptOf [] (pyStrip "hi".data)]) :=
  ⟨rfl, by decide,
   C1_embed_failure_fallback (fun _ => none) (fun _ _ => .ok [])
     (fun _ => none) "hi".data rfl (by decide)⟩

/-- Five retrieval results, as returned by a store holding at least five
points (top_k is 5). -/
def fiveResults : List (List Char) :=
  ["r1".data, "r2".data, "r3".data, "r4".data, "r5".data]

set_option maxRecDepth 40000 in
/-- C2 is false on the code: when retrieval returns 5 chunks, the endpoint
reports `sources_used = 5` (the retrieved count), not 3, even though the
prompt was built from only the first 3 chunks. -/
theorem C2_counterexample :
    chatRoute true (fun _ => some [1]) (fun _ _ => .ok fiveResults)
        (fun _ => some "ans".data) (some "q".data)
      = (.ok "ans".data 5,
         [promptOf (joinSep SEP2 (fiveResults.take 3)) "q".data])
    ∧ (5 : Nat) ≠ 3 := by decide

/-- C2 amended: `sources_used` equals the number of chunks retrieval
returned (up to 5), while the prompt is built from only the first 3 of
them; in particular when retrieval returns 5 results the reported count
is 5. -/
theorem C2_sources_used_counts_retrieved :
    ∀ (embed : List Char → Option (List Int))
      (storeQuery : List Int → Nat → Except (List Char) (List (List Char)))
      (complete : List Char → Option (List Char)) (m : List Char)
      (v : List Int) (results : List (List Char)),
      pyStrip m ≠ [] → embed (pyStrip m) = some v → v ≠ [] →
      storeQuery v 5 = .ok results →
      chatRoute true embed storeQuery complete (some m)
        = (.ok (match complete (promptOf (joinSep SEP2 (results.take 3)) (pyStrip m)) with
                | some t => pyStrip t
                | none => apology)
              results.length,
           [promptOf (joinSep SEP2 (results.take 3)) (pyStrip m)])
      ∧ (results.take 3).length ≤ 3 := by
  intro embed storeQuery complete m v results hm hembed hv hq
  constructor
  · simp only [chatRoute, search_similar_chunks, generate_response, if_neg hm, hembed,
      if_neg hv, hq]
    cases hc : complete (promptOf (joinSep SEP2 (results.take 3)) (pyStrip m)) with
    | none => simp [hc]
    | some t => simp [hc]
  · rw [List.length_take]
    omega

/-- Witness for C2 (amended) at concrete oracles: 5 results retrieved,
`sources_used = 5`, prompt built from the first 3. -/
theorem C2_sources_used_counts_retrieved_witness :
    pyStrip "q".data ≠ []
    ∧ (fun _ : List Char => some [(1 : Int)]) (pyStrip "q".data) = some [(1 : Int)]
    ∧ ([(1 : Int)] ≠ [])
    ∧ (fun _ : List Int => fun _ : Nat =>
        (Except.ok fiveResults : Except (List Char) (List (List Char)))) [(1 : Int)] 5
        = .ok fiveResults
    ∧ (chatRoute true (fun _ => some [(1 : Int)]) (fun _ _ => .ok fiveResults)
          (fun _ => some "ans".data) (some "q".data)
        = (.ok (match (fun _ : List Char => some "ans".data)
                    (promptOf (joinSep SEP2 (fiveResults.take 3)) (pyStrip "q".data)) with
                | some t => pyStrip t
                | none => apology)
              fiveResults.length,
           [promptOf (joinSep SEP2 (fiveResults.take 3)) (pyStrip "q".data)])
        ∧ (fiveResults.take 3).length ≤ 3) :=
  ⟨by decide, rfl, by decide, rfl,
   C2_sources_used_counts_retrieved (fun _ => some [(1 : Int)]) (fun _ _ => .ok fiveResults)
     (fun _ => some "ans".data) "q".data [(1 : Int)] fiveResults
     (by decide) rfl (by decide) rfl⟩

/-- Names bound at module top level of src/api/chat.py (imports and
assignments).  The module talks to Pinecone through `index`; it never binds
`client` or `COLLECTION_NAME`. -/
def chatPyGlobals : List (List Char) :=
  ["Flask".data, "request".data, "jsonify".data, "CORS".data, "openai".data,
   "pinecone".data, "os".data, "load_dotenv".data, "tiktoken".data, "app".data,
   "INDEX_NAME".data, "index".data, "get_embedding".data,
   "search_similar_chunks".data, "generate_response".data, "chat".data,
   "health".data, "handler".data]

/-- Python runtime fault escaping a view function. -/
inductive PyExc where
  | nameError (name : List Char)
deriving DecidableEq, Repr

/-- health endpoint (src/api/chat.py lines 125-146).  Its first statement,
`qdrant_status = "connected" if client else "disconnected"`, evaluates the
bare name `client`; resolution against the module globals fails (chat.py
defines `index`, not `client`), so the function raises NameError before
reaching any other statement, and no try/except encloses the body.  The
`.ok` branch is unreachable (building the real response would additionally
need `COLLECTION_NAME`, also undefined) and carries a placeholder value. -/
def healthRoute : Except PyExc (List Char) :=
  if "client".data ∈ chatPyGlobals then .ok "healthy".data
  else .error (.nameError "client".data)

/-- C5 fails at the health endpoint: every GET /api/health request raises an
unhandled NameError (the module never defines `client`), so not every public
entry point returns a structured result.  The spec is clearly the intent
(the sibling endpoints all wrap their bodies in try/except; health was
written against a Qdrant-flavoured module) and the code a slip. -/
theorem C5_health_raises_name_error :
    healthRoute = .error (.nameError "client".data) := rfl

/-!
Ingestion path.  Two implementations exist in the repository: the
/api/upload/data endpoint (src/api/upload.py lines 103-184) and the CLI
pipeline (src/utils/upload_to_qdrant.py).  Both loop over the filtered
chunks, call the embedding model, accumulate `PointStruct`s and upsert in
batches; they differ in the handling of a failed batch (the CLI clears the
accumulator in its except branch, the endpoint does not) and in that only
the endpoint keeps a `successful_uploads` counter.  `upsertOk k` is the
outcome of the k-th upsert call of the run; `ids k` models the value of
`str(uuid.uuid4())` at the k-th point construction of the run.
-/

/-- Qdrant `PointStruct` as built by both pipelines: a fresh id, the chunk
text, the enumeration index, and a fixed source label. -/
structure Point where
  id : Nat
  text : List Char
  chunk_id : Nat
  source : List Char
deriving DecidableEq, Repr

/-- Mutable state of an upload run: the batch accumulator `points`, the
endpoint's `successful_uploads` counter (`uploaded`; the CLI pipeline has no
such counter and leaves the field at 0), the sequence of point batches
passed to `client.upsert` so far (`calls`), and a ghost record `created` of
every point constructed so far in creation order (it mirrors the
`PointStruct(...)` constructions and never influences control flow). -/
structure UpState where
  points : List Point
  uploaded : Nat
  calls : List (List Point)
  created : List Point
deriving DecidableEq, Repr

/-- Loop of upload_chunks_to_qdrant (src/utils/upload_to_qdrant.py lines
68-106): for each `(i, chunk)` in `enumerate(chunks)`, embed (skip the
chunk on failure), build a point with a fresh uuid, and when the
accumulator reaches `batch_size` call upsert; on upsert failure the except
branch also clears the accumulator (`points = []`). -/
def uploadChunksLoop (ids : Nat → Nat) (embed : List Char → Option (List Int))
    (upsertOk : Nat → Bool) (batchSize : Nat) :
    Nat → UpState → List (List Char) → UpState
  | _, st, [] => st
  | i, st, chunk :: rest =>
    match embed chunk with
    | none => uploadChunksLoop ids embed upsertOk batchSize (i + 1) st rest
    | some _ =>
      let p : Point := ⟨ids st.created.length, chunk, i, "mite-website".data⟩
      let pts := st.points ++ [p]
      let created := st.created ++ [p]
      if batchSize ≤ pts.length then
        uploadChunksLoop ids embed upsertOk batchSize (i + 1)
          ⟨[], st.uploaded, st.calls ++ [pts], created⟩ rest
      else
        uploadChunksLoop ids embed upsertOk batchSize (i + 1)
          ⟨pts, st.uploaded, st.calls, created⟩ rest

/-- Final flush of upload_chunks_to_qdrant (src/utils/upload_to_qdrant.py
lines 108-117): one more upsert call when the accumulator is non-empty; the
outcome is only printed. -/
def finishUploadChunks (st : UpState) : UpState :=
  if st.points = [] then st
  else ⟨st.points, st.uploaded, st.calls ++ [st.points], st.created⟩

/-- Whole upload_chunks_to_qdrant run on an already-chunked list. -/
def uploadChunksRun (ids : Nat → Nat) (embed : List Char → Option (List Int))
    (upsertOk : Nat → Bool) (batchSize : Nat) (chunks : List (List Char)) : UpState :=
  finishUploadChunks (uploadChunksLoop ids embed upsertOk batchSize 0 ⟨[], 0, [], []⟩ chunks)

/-- Model of `list(set(all_chunks))` in main (src/utils/upload_to_qdrant.py
line 188).  Python's set iteration order is unspecified; the model removes
duplicates keeping one representative per distinct string (Mathlib `dedup`);
every verified property relies only on the result holding each text at most
once, which is true for any iteration order. -/
def uniqueChunks (xs : List (List Char)) : List (List Char) :=
  xs.dedup

/-- main (src/utils/upload_to_qdrant.py lines 186-192): deduplicate the
loaded chunks, then run upload_chunks_to_qdrant with the default batch size
of 50. -/
def mainUploadRun (ids : Nat → Nat) (embed : List Char → Option (List Int))
    (upsertOk : Nat → Bool) (allChunks : List (List Char)) : UpState :=
  uploadChunksRun ids embed upsertOk 50 (uniqueChunks allChunks)

/-- Loop of the /api/upload/data endpoint (src/api/upload.py lines
140-166): same shape as the CLI loop with batch size fixed at 50 and source
label "web-upload", except that on upsert failure the except branch only
prints — the accumulator is NOT cleared and `successful_uploads` is not
incremented, so the failed batch's points stay in `points`. -/
def uploadDataLoop (ids : Nat → Nat) (embed : List Char → Option (List Int))
    (upsertOk : Nat → Bool) : Nat → UpState → List (List Char) → UpState
  | _, st, [] => st
  | i, st, chunk :: rest =>
    match embed chunk with
    | none => uploadDataLoop ids embed upsertOk (i + 1) st rest
    | some _ =>
      let p : Point := ⟨ids st.created.length, chunk, i, "web-upload".data⟩
      let pts := st.points ++ [p]
      let created := st.created ++ [p]
      if 50 ≤ pts.length then
        if upsertOk st.calls.length then
          uploadDataLoop ids embed upsertOk (i + 1)
            ⟨[], st.uploaded + pts.length, st.calls ++ [pts], created⟩ rest
        else
          uploadDataLoop ids embed upsertOk (i + 1)
            ⟨pts, st.uploaded, st.calls ++ [pts], created⟩ rest
      else
        uploadDataLoop ids embed upsertOk (i + 1)
          ⟨pts, st.uploaded, st.calls, created⟩ rest

/-- Final flush of the endpoint (src/api/upload.py lines 168-174):
`successful_uploads` grows only when the final upsert succeeds. -/
def finishUploadData (upsertOk : Nat → Bool) (st : UpState) : UpState :=
  if st.points = [] then st
  else
    ⟨st.points,
     if upsertOk st.calls.length then st.uploaded + st.points.length else st.uploaded,
     st.calls ++ [st.points], st.created⟩

/-- Whole endpoint upload loop on an already-chunked list. -/
def uploadDataRun (ids : Nat → Nat) (embed : List Char → Option (List Int))
    (upsertOk : Nat → Bool) (chunks : List (List Char)) : UpState :=
  finishUploadData upsertOk (uploadDataLoop ids embed upsertOk 0 ⟨[], 0, [], []⟩ chunks)

/-- Request body of /api/upload/data. -/
structure UploadBody where
  password : List Char
  text_data : List Char

/-- Response of /api/upload/data (success message text omitted; the numeric
payload `total_chunks` / `uploaded_chunks` is kept). -/
inductive UploadResp where
  | ok (total uploadedCount : Nat)
  | err (msg : List Char) (code : Nat)
deriving DecidableEq, Repr

/-- upload_data endpoint (src/api/upload.py lines 103-184): password check,
non-empty text check, collection creation (`collectionOk` models the
create_collection outcome), chunking and filtering, then the batched upload
loop.  The second component records the batches passed to upsert. -/
def uploadDataRoute (ids : Nat → Nat) (embed : List Char → Option (List Int))
    (upsertOk : Nat → Bool) (adminPassword : List Char) (collectionOk : Bool)
    (body : Option UploadBody) : UploadResp × List (List Point) :=
  match body with
  | none => (.err "Invalid password".data 401, [])
  | some b =>
    if b.password ≠ adminPassword then (.err "Invalid password".data 401, [])
    else if b.text_data = [] then (.err "No text data provided".data 400, [])
    else if collectionOk = false then (.err "Error creating collection".data 500, [])
    else
      let chunks := chunkPipeline b.text_data
      if chunks = [] then (.err "No valid chunks found".data 400, [])
      else
        let st := uploadDataRun ids embed upsertOk chunks
        (.ok chunks.length st.uploaded, st.calls)

/-- Demonstration run of the endpoint loop: 51 chunks, every embedding
succeeds, the first upsert call fails and every later one succeeds. -/
def apiDemoRun : UpState :=
  uploadDataRun (fun k => k) (fun _ => some []) (fun k => k != 0) (List.replicate 51 [])

set_option maxRecDepth 100000 in
/-- C8 is false on the code as stated: in this endpoint run with 51 valid
chunks the upsert operation is indeed invoked exactly twice, but with
batches of 50 and then 51 points (the failed first batch is retained and
resent together with the last point), not 50 and 1. -/
theorem C8_counterexample :
    apiDemoRun.calls.map List.length = [50, 51]
    ∧ apiDemoRun.calls.map List.length ≠ [50, 1] := by decide

set_option maxRecDepth 100000 in
/-- C4 is false on the code as stated: in the same endpoint run the first
upsert call fails, yet the chunk with index 0 (part of that failed batch)
appears again in the second, later upsert call — the endpoint does not
continue with a fresh accumulator. -/
theorem C4_counterexample :
    ((fun k => k != 0) : Nat → Bool) 0 = false
    ∧ 0 ∈ (apiDemoRun.calls.getD 0 []).map Point.chunk_id
    ∧ 0 ∈ (apiDemoRun.calls.getD 1 []).map Point.chunk_id := by decide

/-- A 60-character paragraph (long enough to survive the length filter). -/
def dupParagraph : List Char := List.replicate 60 'a'

/-- Upload text made of the same paragraph twice, separated by the primary
separator: after chunking and filtering, two surviving chunks with equal
trimmed text. -/
def dupText : List Char := dupParagraph ++ SEP1 ++ dupParagraph

set_option maxRecDepth 400000 in
/-- C3 is false on the code as stated: the /api/upload/data endpoint
performs no deduplication, so ingesting two identical paragraphs embeds and
upserts both — the single upsert call carries two points with the same
text. -/
theorem C3_counterexample :
    ((uploadDataRoute (fun k => k) (fun _ => some []) (fun _ => true)
        "admin123".data true (some ⟨"admin123".data, dupText⟩)).2.flatten.map Point.text
      = [dupParagraph, dupParagraph])
    ∧ ¬ (((uploadDataRoute (fun k => k) (fun _ => some []) (fun _ => true)
        "admin123".data true (some ⟨"admin123".data, dupText⟩)).2.flatten.map Point.text).Nodup)
    := by decide

/-- Count of points in successful upsert calls — the spec's accounting
(`uploadedChunks` = sum of chunks in successfully-upserted batches),
written from the spec's words for comparison with the code's counter. -/
def uploadedPerSpecAux (upsertOk : Nat → Bool) : Nat → List (List Point) → Nat
  | _, [] => 0
  | k, b :: bs => (if upsertOk k then b.length else 0) + uploadedPerSpecAux upsertOk (k + 1) bs

/-- Total of `uploadedPerSpecAux` starting at call index 0. -/
def uploadedPerSpec (upsertOk : Nat → Bool) (calls : List (List Point)) : Nat :=
  uploadedPerSpecAux upsertOk 0 calls

theorem uploadedPerSpecAux_append (u : Nat → Bool) (b : List Point) :
    ∀ (l : List (List Point)) (k : Nat),
      uploadedPerSpecAux u k (l ++ [b])
        = uploadedPerSpecAux u k l + (if u (k + l.length) then b.length else 0) := by
  intro l
  induction l with
  | nil => intro k; simp [uploadedPerSpecAux]
  | cons a l ih =>
    intro k
    simp only [List.cons_append, uploadedPerSpecAux, List.append_eq, ih (k + 1), List.length_cons]
    have he : k + 1 + l.length = k + (l.length + 1) := by omega
    rw [he, Nat.add_assoc]

theorem uploadDataLoop_uploaded (ids : Nat → Nat) (embed : List Char → Option (List Int))
    (upsertOk : Nat → Bool) :
    ∀ (chunks : List (List Char)) (i : Nat) (st : UpState),
      st.uploaded = uploadedPerSpec upsertOk st.calls →
      (uploadDataLoop ids embed upsertOk i st chunks).uploaded
        = uploadedPerSpec upsertOk (uploadDataLoop ids embed upsertOk i st chunks).calls := by
  intro chunks
  induction chunks with
  | nil => intro i st h; exact h
  | cons c rest ih =>
    intro i st h
    simp only [uploadDataLoop]
    cases hv : embed c with
    | none => exact ih _ _ h
    | some v =>
      by_cases hfull : 50 ≤ (st.points ++ [(⟨ids st.created.length, c, i, "web-upload".data⟩ : Point)]).length
      · rw [if_pos hfull]
        by_cases hok : upsertOk st.calls.length
        · rw [if_pos hok]
          apply ih
          simp only [uploadedPerSpec, uploadedPerSpecAux_append, Nat.zero_add, hok, if_pos, h]
        · rw [if_neg hok]
          apply ih
          simp only [uploadedPerSpec, uploadedPerSpecAux_append, Nat.zero_add]
          rw [if_neg hok, h]
          rfl
      · rw [if_neg hfull]
        exact ih _ _ h

theorem finishUploadData_uploaded (upsertOk : Nat → Bool) (st : UpState)
    (h : st.uploaded = uploadedPerSpec upsertOk st.calls) :
    (finishUploadData upsertOk st).uploaded
      = uploadedPerSpec upsertOk (finishUploadData upsertOk st).calls := by
  unfold finishUploadData
  by_cases hp : st.points = []
  · rw [if_pos hp]; exact h
  · rw [if_neg hp]
    simp only [uploadedPerSpec, uploadedPerSpecAux_append, Nat.zero_add]
    by_cases hok : upsertOk st.calls.length
    · rw [if_pos hok, if_pos hok, h]; rfl
    · rw [if_neg hok, if_neg hok, h]; rfl

theorem mem_of_mem_getLast? {l : List Nat} {x : Nat} (h : x ∈ l.getLast?) : x ∈ l := by
  rcases List.mem_getLast?_eq_getLast h with ⟨hne, hx⟩
  rw [hx]
  exact List.getLast_mem hne

theorem uploadChunksLoop_chain (ids : Nat → Nat) (embed : List Char → Option (List Int))
    (upsertOk : Nat → Bool) (batchSize : Nat) :
    ∀ (chunks : List (List Char)) (i : Nat) (st : UpState),
      List.Chain' (· < ·) ((st.calls.flatten ++ st.points).map Point.chunk_id) →
      (∀ p ∈ st.calls.flatten ++ st.points, p.chunk_id < i) →
      List.Chain' (· < ·)
        (((uploadChunksLoop ids embed upsertOk batchSize i st chunks).calls.flatten
          ++ (uploadChunksLoop ids embed upsertOk batchSize i st chunks).points).map
            Point.chunk_id) := by
  intro chunks
  induction chunks with
  | nil => intro i st hch hbd; exact hch
  | cons c rest ih =>
    intro i st hch hbd
    simp only [uploadChunksLoop]
    cases hv : embed c with
    | none => exact ih (i + 1) st hch (fun p hp => Nat.lt_succ_of_lt (hbd p hp))
    | some v =>
      have hmap : (st.calls.flatten
            ++ (st.points ++ [(⟨ids st.created.length, c, i, "mite-website".data⟩ : Point)])).map
              Point.chunk_id
          = ((st.calls.flatten ++ st.points).map Point.chunk_id) ++ [i] := by
        rw [← List.append_assoc, List.map_append]
        rfl
      have hch' : List.Chain' (· < ·)
          ((st.calls.flatten
            ++ (st.points ++ [(⟨ids st.created.length, c, i, "mite-website".data⟩ : Point)])).map
              Point.chunk_id) := by
        rw [hmap, List.chain'_append]
        refine ⟨hch, List.chain'_singleton i, ?_⟩
        intro x hx y hy
        have hy' : i = y := by simpa using hy
        subst hy'
        have hxmem := mem_of_mem_getLast? hx
        rcases List.mem_map.mp hxmem with ⟨q, hq, hqx⟩
        rw [← hqx]
        exact hbd q hq
      have hbd' : ∀ q ∈ st.calls.flatten
            ++ (st.points ++ [(⟨ids st.created.length, c, i, "mite-website".data⟩ : Point)]),
          q.chunk_id < i + 1 := by
        intro q hq
        rw [← List.append_assoc] at hq
        rcases List.mem_append.mp hq with h | h
        · exact Nat.lt_succ_of_lt (hbd q h)
        · have hq' : q = ⟨ids st.created.length, c, i, "mite-website".data⟩ := by simpa using h
          rw [hq']
          exact Nat.lt_succ_self i
      by_cases hfull : batchSize
          ≤ (st.points ++ [(⟨ids st.created.length, c, i, "mite-website".data⟩ : Point)]).length
      · rw [if_pos hfull]
        apply ih (i + 1)
        · have : ((st.calls
                ++ [st.points ++ [(⟨ids st.created.length, c, i, "mite-website".data⟩ : Point)]]).flatten
              ++ ([] : List Point))
            = st.calls.flatten
              ++ (st.points ++ [(⟨ids st.created.length, c, i, "mite-website".data⟩ : Point)]) := by
            simp
          rw [this]
          exact hch'
        · intro q hq
          apply hbd' q
          revert hq
          simp
      · rw [if_neg hfull]
        exact ih _ _ hch' hbd'

/-- C4 amended: in the CLI pipeline (upload_chunks_to_qdrant) a failed full
batch is indeed discarded — the accumulator is cleared on failure, so across
the whole run the chunk indices carried by the upsert calls are strictly
increasing: no chunk is ever included in two upsert calls, in particular
the chunks of a failed batch never reappear in a later call.  In the
/api/upload/data endpoint the accumulator is NOT cleared on failure (the
failed batch is retained and resent, see the counterexample); there the
`successful_uploads` counter still counts exactly the chunks of successful
upsert calls. -/
theorem C4_failed_batch_policy :
    ∀ (ids : Nat → Nat) (embed : List Char → Option (List Int)) (upsertOk : Nat → Bool)
      (batchSize : Nat) (chunks : List (List Char)),
      List.Chain' (· < ·)
        (((uploadChunksRun ids embed upsertOk batchSize chunks).calls.flatten).map
          Point.chunk_id)
      ∧ (uploadDataRun ids embed upsertOk chunks).uploaded
          = uploadedPerSpec upsertOk (uploadDataRun ids embed upsertOk chunks).calls := by
  intro ids embed upsertOk batchSize chunks
  constructor
  · have hloop := uploadChunksLoop_chain ids embed upsertOk batchSize chunks 0 ⟨[], 0, [], []⟩
      (by simp) (by simp)
    unfold uploadChunksRun finishUploadChunks
    by_cases hp : (uploadChunksLoop ids embed upsertOk batchSize 0 ⟨[], 0, [], []⟩ chunks).points
        = []
    · rw [if_pos hp]
      rw [hp] at hloop
      simpa using hloop
    · rw [if_neg hp]
      simp only [List.flatten_append, List.flatten_cons, List.flatten_nil, List.append_nil]
      exact hloop
  · exact finishUploadData_uploaded upsertOk _
      (uploadDataLoop_uploaded ids embed upsertOk chunks 0 ⟨[], 0, [], []⟩
        (by simp [uploadedPerSpec, uploadedPerSpecAux]))

theorem uploadChunksLoop_created_texts (ids : Nat → Nat) (embed : List Char → Option (List Int))
    (upsertOk : Nat → Bool) (batchSize : Nat) :
    ∀ (chunks : List (List Char)) (i : Nat) (st : UpState),
      (uploadChunksLoop ids embed upsertOk batchSize i st chunks).created.map Point.text
        = st.created.map Point.text ++ chunks.filter (fun c => (embed c).isSome) := by
  intro chunks
  induction chunks with
  | nil => intro i st; simp [uploadChunksLoop]
  | cons c rest ih =>
    intro i st
    simp only [uploadChunksLoop]
    cases hv : embed c with
    | none =>
      rw [ih]
      simp [List.filter_cons, hv]
    | some v =>
      by_cases hfull : batchSize
          ≤ (st.points ++ [(⟨ids st.created.length, c, i, "mite-website".data⟩ : Point)]).length
      · rw [if_pos hfull, ih]
        simp [List.filter_cons, hv]
      · rw [if_neg hfull, ih]
        simp [List.filter_cons, hv]

theorem uploadChunksLoop_flatten_created (ids : Nat → Nat)
    (embed : List Char → Option (List Int)) (upsertOk : Nat → Bool) (batchSize : Nat) :
    ∀ (chunks : List (List Char)) (i : Nat) (st : UpState),
      st.calls.flatten ++ st.points = st.created →
      (uploadChunksLoop ids embed upsertOk batchSize i st chunks).calls.flatten
        ++ (uploadChunksLoop ids embed upsertOk batchSize i st chunks).points
        = (uploadChunksLoop ids embed upsertOk batchSize i st chunks).created := by
  intro chunks
  induction chunks with
  | nil => intro i st h; exact h
  | cons c rest ih =>
    intro i st h
    simp only [uploadChunksLoop]
    cases hv : embed c with
    | none => exact ih _ _ h
    | some v =>
      by_cases hfull : batchSize
          ≤ (st.points ++ [(⟨ids st.created.length, c, i, "mite-website".data⟩ : Point)]).length
      · rw [if_pos hfull]
        apply ih
        simp only [List.flatten_append, List.flatten_cons, List.flatten_nil, List.append_nil]
        rw [← List.append_assoc, h]
      · rw [if_neg hfull]
        apply ih
        rw [← List.append_assoc, h]

/-- C3 amended: deduplication happens only in the CLI pipeline
(src/utils/upload_to_qdrant.py main, `list(set(all_chunks))`): there, across
the whole run, the points passed to upsert carry pairwise-distinct texts, so
a duplicated text is embedded and uploaded at most once.  The
/api/upload/data endpoint performs no deduplication at all (see the
counterexample: identical chunks are each embedded and uploaded). -/
theorem C3_cli_dedup :
    ∀ (ids : Nat → Nat) (embed : List Char → Option (List Int)) (upsertOk : Nat → Bool)
      (allChunks : List (List Char)),
      (((mainUploadRun ids embed upsertOk allChunks).calls.flatten).map Point.text).Nodup := by
  intro ids embed upsertOk allChunks
  have hloopflat := uploadChunksLoop_flatten_created ids embed upsertOk 50
    (uniqueChunks allChunks) 0 ⟨[], 0, [], []⟩ (by simp)
  have hlooptexts := uploadChunksLoop_created_texts ids embed upsertOk 50
    (uniqueChunks allChunks) 0 ⟨[], 0, [], []⟩
  have hflat : (mainUploadRun ids embed upsertOk allChunks).calls.flatten
      = (uploadChunksLoop ids embed upsertOk 50 0 ⟨[], 0, [], []⟩
          (uniqueChunks allChunks)).created := by
    unfold mainUploadRun uploadChunksRun finishUploadChunks
    by_cases hp : (uploadChunksLoop ids embed upsertOk 50 0 ⟨[], 0, [], []⟩
        (uniqueChunks allChunks)).points = []
    · rw [if_pos hp]
      rw [hp, List.append_nil] at hloopflat
      exact hloopflat
    · rw [if_neg hp]
      simp only [List.flatten_append, List.flatten_cons, List.flatten_nil, List.append_nil]
      exact hloopflat
  rw [hflat, hlooptexts]
  simp only [List.map_nil, List.nil_append]
  exact (List.nodup_dedup allChunks).sublist (List.filter_sublist _)

theorem uploadChunksLoop_batches (ids : Nat → Nat) (embed : List Char → Option (List Int))
    (upsertOk : Nat → Bool) (batchSize : Nat) (hbs : 0 < batchSize) :
    ∀ (chunks : List (List Char)) (i : Nat) (st : UpState),
      (∀ c ∈ chunks, (embed c).isSome = true) → st.points.length < batchSize →
      ((uploadChunksLoop ids embed upsertOk batchSize i st chunks).calls.map List.length
          = st.calls.map List.length
            ++ List.replicate ((st.points.length + chunks.length) / batchSize) batchSize)
      ∧ (uploadChunksLoop ids embed upsertOk batchSize i st chunks).points.length
          = (st.points.length + chunks.length) % batchSize := by
  intro chunks
  induction chunks with
  | nil =>
    intro i st hall hq
    simp only [uploadChunksLoop, List.length_nil, Nat.add_zero]
    constructor
    · rw [Nat.div_eq_of_lt hq]
      simp
    · rw [Nat.mod_eq_of_lt hq]
  | cons c rest ih =>
    intro i st hall hq
    have hc : (embed c).isSome = true := hall c (by simp)
    obtain ⟨v, hv⟩ := Option.isSome_iff_exists.mp hc
    have hrest : ∀ x ∈ rest, (embed x).isSome = true := fun x hx => hall x (by simp [hx])
    simp only [uploadChunksLoop, hv, List.length_cons]
    have hlen : (st.points ++ [(⟨ids st.created.length, c, i, "mite-website".data⟩ : Point)]).length
        = st.points.length + 1 := by simp
    by_cases hfull : batchSize
        ≤ (st.points ++ [(⟨ids st.created.length, c, i, "mite-website".data⟩ : Point)]).length
    · rw [if_pos hfull]
      have hqe : st.points.length + 1 = batchSize := by
        rw [hlen] at hfull
        omega
      obtain ⟨hcalls, hpts⟩ := ih (i + 1)
        ⟨[], st.uploaded,
         st.calls ++ [st.points ++ [⟨ids st.created.length, c, i, "mite-website".data⟩]],
         st.created ++ [⟨ids st.created.length, c, i, "mite-website".data⟩]⟩ hrest (by simpa using hbs)
      constructor
      · rw [hcalls]
        simp only [List.map_append, List.map_cons, List.map_nil, hlen, hqe, List.length_nil,
          Nat.zero_add]
        have hdiv : (st.points.length + (rest.length + 1)) / batchSize
            = rest.length / batchSize + 1 := by
          have he : st.points.length + (rest.length + 1) = rest.length + batchSize := by omega
          rw [he, Nat.add_div_right rest.length hbs]
        rw [hdiv, List.replicate_succ, List.append_assoc]
        rfl
      · rw [hpts]
        simp only [List.length_nil, Nat.zero_add]
        have he : st.points.length + (rest.length + 1) = rest.length + batchSize := by omega
        rw [he, Nat.add_mod_right]
    · rw [if_neg hfull]
      have hq' : st.points.length + 1 < batchSize := by
        rw [hlen] at hfull
        omega
      obtain ⟨hcalls, hpts⟩ := ih (i + 1)
        ⟨st.points ++ [⟨ids st.created.length, c, i, "mite-website".data⟩], st.uploaded,
         st.calls, st.created ++ [⟨ids st.created.length, c, i, "mite-website".data⟩]⟩
        hrest (by simpa using hq')
      have he : st.points.length + 1 + rest.length = st.points.length + (rest.length + 1) := by
        omega
      constructor
      · rw [hcalls]
        simp only [hlen, he]
      · rw [hpts]
        simp only [hlen, he]

theorem uploadDataLoop_batches (ids : Nat → Nat) (embed : List Char → Option (List Int))
    (upsertOk : Nat → Bool) (hok : ∀ k, upsertOk k = true) :
    ∀ (chunks : List (List Char)) (i : Nat) (st : UpState),
      (∀ c ∈ chunks, (embed c).isSome = true) → st.points.length < 50 →
      ((uploadDataLoop ids embed upsertOk i st chunks).calls.map List.length
          = st.calls.map List.length
            ++ List.replicate ((st.points.length + chunks.length) / 50) 50)
      ∧ (uploadDataLoop ids embed upsertOk i st chunks).points.length
          = (st.points.length + chunks.length) % 50 := by
  intro chunks
  induction chunks with
  | nil =>
    intro i st hall hq
    simp only [uploadDataLoop, List.length_nil, Nat.add_zero]
    constructor
    · rw [Nat.div_eq_of_lt hq]
      simp
    · rw [Nat.mod_eq_of_lt hq]
  | cons c rest ih =>
    intro i st hall hq
    have hc : (embed c).isSome = true := hall c (by simp)
    obtain ⟨v, hv⟩ := Option.isSome_iff_exists.mp hc
    have hrest : ∀ x ∈ rest, (embed x).isSome = true := fun x hx => hall x (by simp [hx])
    simp only [uploadDataLoop, hv, List.length_cons, hok, if_true]
    have hlen : (st.points ++ [(⟨ids st.created.length, c, i, "web-upload".data⟩ : Point)]).length
        = st.points.length + 1 := by simp
    by_cases hfull : 50
        ≤ (st.points ++ [(⟨ids st.created.length, c, i, "web-upload".data⟩ : Point)]).length
    · rw [if_pos hfull]
      have hqe : st.points.length + 1 = 50 := by
        rw [hlen] at hfull
        omega
      obtain ⟨hcalls, hpts⟩ := ih (i + 1)
        ⟨[], st.uploaded
            + (st.points ++ [(⟨ids st.created.length, c, i, "web-upload".data⟩ : Point)]).length,
         st.calls ++ [st.points ++ [⟨ids st.created.length, c, i, "web-upload".data⟩]],
         st.created ++ [⟨ids st.created.length, c, i, "web-upload".data⟩]⟩ hrest (by simp)
      constructor
      · rw [hcalls]
        simp only [List.map_append, List.map_cons, List.map_nil, hlen, hqe, List.length_nil,
          Nat.zero_add]
        have hdiv : (st.points.length + (rest.length + 1)) / 50 = rest.length / 50 + 1 := by
          have he : st.points.length + (rest.length + 1) = rest.length + 50 := by omega
          rw [he, Nat.add_div_right rest.length (by omega)]
        rw [hdiv, List.replicate_succ, List.append_assoc]
        rfl
      · rw [hpts]
        simp only [List.length_nil, Nat.zero_add]
        have he : st.points.length + (rest.length + 1) = rest.length + 50 := by omega
        rw [he, Nat.add_mod_right]
    · rw [if_neg hfull]
      have hq' : st.points.length + 1 < 50 := by
        rw [hlen] at hfull
        omega
      obtain ⟨hcalls, hpts⟩ := ih (i + 1)
        ⟨st.points ++ [⟨ids st.created.length, c, i, "web-upload".data⟩], st.uploaded,
         st.calls, st.created ++ [⟨ids st.created.length, c, i, "web-upload".data⟩]⟩
        hrest (by simpa using hq')
      have he : st.points.length + 1 + rest.length = st.points.length + (rest.length + 1) := by
        omega
      constructor
      · rw [hcalls]
        simp only [hlen, he]
      · rw [hpts]
        simp only [hlen, he]

/-- C8 amended: with 51 valid chunks and batch size 50, upsert is invoked
exactly twice, with 50 points and then 1 point, in that order — in the CLI
pipeline unconditionally (its accumulator is cleared even when an upsert
fails), and in the /api/upload/data endpoint provided every upsert
succeeds (when the first upsert fails, the endpoint's second call instead
carries all 51 points, see the counterexample). -/
theorem C8_batch_boundary :
    ∀ (ids : Nat → Nat) (embed : List Char → Option (List Int)) (upsertOk : Nat → Bool)
      (chunks : List (List Char)),
      (∀ c ∈ chunks, (embed c).isSome = true) → chunks.length = 51 →
      ((uploadChunksRun ids embed upsertOk 50 chunks).calls.map List.length = [50, 1])
      ∧ ((∀ k, upsertOk k = true) →
        (uploadDataRun ids embed upsertOk chunks).calls.map List.length = [50, 1]) := by
  intro ids embed upsertOk chunks hall hlen
  constructor
  · obtain ⟨hcalls, hpts⟩ := uploadChunksLoop_batches ids embed upsertOk 50 (by omega) chunks 0
      ⟨[], 0, [], []⟩ hall (by simp)
    rw [hlen] at hcalls hpts
    unfold uploadChunksRun finishUploadChunks
    have hne : (uploadChunksLoop ids embed upsertOk 50 0 ⟨[], 0, [], []⟩ chunks).points ≠ [] := by
      intro h
      rw [h] at hpts
      simp at hpts
    rw [if_neg hne]
    simp only [List.map_append, List.map_cons, List.map_nil]
    rw [hcalls, hpts]
    decide
  · intro hok
    obtain ⟨hcalls, hpts⟩ := uploadDataLoop_batches ids embed upsertOk hok chunks 0
      ⟨[], 0, [], []⟩ hall (by simp)
    rw [hlen] at hcalls hpts
    unfold uploadDataRun finishUploadData
    have hne : (uploadDataLoop ids embed upsertOk 0 ⟨[], 0, [], []⟩ chunks).points ≠ [] := by
      intro h
      rw [h] at hpts
      simp at hpts
    rw [if_neg hne]
    simp only [List.map_append, List.map_cons, List.map_nil]
    rw [hcalls, hpts]
    decide

/-- Witness for C8 (amended): 51 chunks, all embeddings and upserts
succeed; both pipelines make exactly the calls of sizes 50 and 1. -/
theorem C8_batch_boundary_witness :
    (∀ c ∈ List.replicate 51 ([] : List Char),
      ((fun _ : List Char => some ([] : List Int)) c).isSome = true)
    ∧ (List.replicate 51 ([] : List Char)).length = 51
    ∧ (((uploadChunksRun (fun k => k) (fun _ => some []) (fun _ => true) 50
          (List.replicate 51 [])).calls.map List.length = [50, 1])
      ∧ ((∀ k : Nat, (fun _ : Nat => true) k = true) →
        (uploadDataRun (fun k => k) (fun _ => some []) (fun _ => true)
          (List.replicate 51 [])).calls.map List.length = [50, 1])) :=
  ⟨by decide, by decide,
   C8_batch_boundary (fun k => k) (fun _ => some []) (fun _ => true)
     (List.replicate 51 []) (by decide) (by decide)⟩

theorem finishUploadChunks_created (st : UpState) :
    (finishUploadChunks st).created = st.created := by
  unfold finishUploadChunks
  by_cases hp : st.points = [] <;> simp [hp]

theorem finishUploadData_created (upsertOk : Nat → Bool) (st : UpState) :
    (finishUploadData upsertOk st).created = st.created := by
  unfold finishUploadData
  by_cases hp : st.points = [] <;> simp [hp]

theorem uploadChunksLoop_created_ids (ids : Nat → Nat) (embed : List Char → Option (List Int))
    (upsertOk : Nat → Bool) (batchSize : Nat) :
    ∀ (chunks : List (List Char)) (i : Nat) (st : UpState),
      st.created.map Point.id = (List.range st.created.length).map ids →
      (uploadChunksLoop ids embed upsertOk batchSize i st chunks).created.map Point.id
        = (List.range
            (uploadChunksLoop ids embed upsertOk batchSize i st chunks).created.length).map
              ids := by
  intro chunks
  induction chunks with
  | nil => intro i st h; exact h
  | cons c rest ih =>
    intro i st h
    simp only [uploadChunksLoop]
    cases hv : embed c with
    | none => exact ih _ _ h
    | some v =>
      have hnew : (st.created
            ++ [(⟨ids st.created.length, c, i, "mite-website".data⟩ : Point)]).map Point.id
          = (List.range (st.created
              ++ [(⟨ids st.created.length, c, i, "mite-website".data⟩ : Point)]).length).map
                ids := by
        rw [List.map_append, h, List.length_append]
        simp [List.range_succ]
      by_cases hfull : batchSize
          ≤ (st.points ++ [(⟨ids st.created.length, c, i, "mite-website".data⟩ : Point)]).length
      · rw [if_pos hfull]
        exact ih _ _ hnew
      · rw [if_neg hfull]
        exact ih _ _ hnew

theorem uploadDataLoop_created_ids (ids : Nat → Nat) (embed : List Char → Option (List Int))
    (upsertOk : Nat → Bool) :
    ∀ (chunks : List (List Char)) (i : Nat) (st : UpState),
      st.created.map Point.id = (List.range st.created.length).map ids →
      (uploadDataLoop ids embed upsertOk i st chunks).created.map Point.id
        = (List.range
            (uploadDataLoop ids embed upsertOk i st chunks).created.length).map ids := by
  intro chunks
  induction chunks with
  | nil => intro i st h; exact h
  | cons c rest ih =>
    intro i st h
    simp only [uploadDataLoop]
    cases hv : embed c with
    | none => exact ih _ _ h
    | some v =>
      have hnew : (st.created
            ++ [(⟨ids st.created.length, c, i, "web-upload".data⟩ : Point)]).map Point.id
          = (List.range (st.created
              ++ [(⟨ids st.created.length, c, i, "web-upload".data⟩ : Point)]).length).map
                ids := by
        rw [List.map_append, h, List.length_append]
        simp [List.range_succ]
      by_cases hfull : 50
          ≤ (st.points ++ [(⟨ids st.created.length, c, i, "web-upload".data⟩ : Point)]).length
      · by_cases hok : upsertOk st.calls.length
        · rw [if_pos hfull, if_pos hok]
          exact ih _ _ hnew
        · rw [if_pos hfull, if_neg hok]
          exact ih _ _ hnew
      · rw [if_neg hfull]
        exact ih _ _ hnew

theorem uploadDataLoop_persisted (ids : Nat → Nat) (embed : List Char → Option (List Int))
    (upsertOk : Nat → Bool) :
    ∀ (chunks : List (List Char)) (i : Nat) (st : UpState),
      (∀ p ∈ st.calls.flatten ++ st.points, p ∈ st.created) →
      ∀ p ∈ (uploadDataLoop ids embed upsertOk i st chunks).calls.flatten
          ++ (uploadDataLoop ids embed upsertOk i st chunks).points,
        p ∈ (uploadDataLoop ids embed upsertOk i st chunks).created := by
  intro chunks
  induction chunks with
  | nil => intro i st h; exact h
  | cons c rest ih =>
    intro i st h
    simp only [uploadDataLoop]
    cases hv : embed c with
    | none => exact ih _ _ h
    | some v =>
      have hsub : ∀ q ∈ st.calls.flatten
            ++ (st.points ++ [(⟨ids st.created.length, c, i, "web-upload".data⟩ : Point)]),
          q ∈ st.created ++ [(⟨ids st.created.length, c, i, "web-upload".data⟩ : Point)] := by
        intro q hq
        rw [← List.append_assoc] at hq
        rcases List.mem_append.mp hq with hh | hh
        · exact List.mem_append_left _ (h q hh)
        · exact List.mem_append_right _ hh
      by_cases hfull : 50
          ≤ (st.points ++ [(⟨ids st.created.length, c, i, "web-upload".data⟩ : Point)]).length
      · by_cases hok : upsertOk st.calls.length
        · rw [if_pos hfull, if_pos hok]
          apply ih
          intro q hq
          apply hsub
          rw [List.mem_append]
          revert hq
          simp only [List.flatten_append, List.flatten_cons, List.flatten_nil, List.append_nil,
            List.mem_append]
          tauto
        · rw [if_pos hfull, if_neg hok]
          apply ih
          intro q hq
          apply hsub
          rw [List.mem_append]
          revert hq
          simp only [List.flatten_append, List.flatten_cons, List.flatten_nil, List.append_nil,
            List.mem_append]
          tauto
      · rw [if_neg hfull]
        exact ih _ _ hsub

theorem uploadChunksRun_created_ids (ids : Nat → Nat) (embed : List Char → Option (List Int))
    (upsertOk : Nat → Bool) (batchSize : Nat) (cs : List (List Char)) :
    (uploadChunksRun ids embed upsertOk batchSize cs).created.map Point.id
      = (List.range (uploadChunksRun ids embed upsertOk batchSize cs).created.length).map ids := by
  unfold uploadChunksRun
  rw [finishUploadChunks_created]
  exact uploadChunksLoop_created_ids ids embed upsertOk batchSize cs 0 ⟨[], 0, [], []⟩ (by simp)

theorem uploadDataRun_created_ids (ids : Nat → Nat) (embed : List Char → Option (List Int))
    (upsertOk : Nat → Bool) (cs : List (List Char)) :
    (uploadDataRun ids embed upsertOk cs).created.map Point.id
      = (List.range (uploadDataRun ids embed upsertOk cs).created.length).map ids := by
  unfold uploadDataRun
  rw [finishUploadData_created]
  exact uploadDataLoop_created_ids ids embed upsertOk cs 0 ⟨[], 0, [], []⟩ (by simp)

theorem uploadChunksRun_created_length (ids : Nat → Nat) (embed : List Char → Option (List Int))
    (upsertOk : Nat → Bool) (batchSize : Nat) (cs : List (List Char))
    (hall : ∀ c ∈ cs, (embed c).isSome = true) :
    (uploadChunksRun ids embed upsertOk batchSize cs).created.length = cs.length := by
  unfold uploadChunksRun
  rw [finishUploadChunks_created]
  have h := uploadChunksLoop_created_texts ids embed upsertOk batchSize cs 0 ⟨[], 0, [], []⟩
  have hlen := congrArg List.length h
  simp only [List.length_map, List.length_append, List.map_nil, List.length_nil,
    Nat.zero_add] at hlen
  rw [hlen, List.filter_eq_self.mpr hall]

theorem uploadChunksRun_flatten (ids : Nat → Nat) (embed : List Char → Option (List Int))
    (upsertOk : Nat → Bool) (batchSize : Nat) (cs : List (List Char)) :
    (uploadChunksRun ids embed upsertOk batchSize cs).calls.flatten
      = (uploadChunksRun ids embed upsertOk batchSize cs).created := by
  have hloopflat := uploadChunksLoop_flatten_created ids embed upsertOk batchSize cs 0
    ⟨[], 0, [], []⟩ (by simp)
  unfold uploadChunksRun finishUploadChunks
  by_cases hp : (uploadChunksLoop ids embed upsertOk batchSize 0 ⟨[], 0, [], []⟩ cs).points = []
  · rw [if_pos hp]
    rw [hp, List.append_nil] at hloopflat
    exact hloopflat
  · rw [if_neg hp]
    simp only [List.flatten_append, List.flatten_cons, List.flatten_nil, List.append_nil]
    exact hloopflat

theorem uploadDataRun_persisted (ids : Nat → Nat) (embed : List Char → Option (List Int))
    (upsertOk : Nat → Bool) (cs : List (List Char)) :
    ∀ p ∈ (uploadDataRun ids embed upsertOk cs).calls.flatten,
      p ∈ (uploadDataRun ids embed upsertOk cs).created := by
  intro p hp
  have hloop := uploadDataLoop_persisted ids embed upsertOk cs 0 ⟨[], 0, [], []⟩ (by simp)
  unfold uploadDataRun at hp ⊢
  rw [finishUploadData_created]
  unfold finishUploadData at hp
  by_cases hpts : (uploadDataLoop ids embed upsertOk 0 ⟨[], 0, [], []⟩ cs).points = []
  · rw [if_pos hpts] at hp
    exact hloop p (List.mem_append_left _ hp)
  · rw [if_neg hpts] at hp
    simp only [List.flatten_append, List.flatten_cons, List.flatten_nil, List.append_nil] at hp
    exact hloop p hp

/-- C10: in both pipelines, each point's id is drawn from the fresh-uuid
supply in creation order, and from nothing else: the sequence of ids is a
prefix of the supply, is unchanged when the same supply is used on any
other equally-long chunk list (so the id depends on neither text, ordinal
nor source), and when two runs draw from disjoint parts of the supply —
which is what uuid4's freshness provides — re-ingesting identical text
yields points whose ids collide with none of the first run's, so the
upserts insert new points rather than overwrite.  Every point handed to
upsert is one of the created points. -/
theorem C10_fresh_random_ids :
    ∀ (f g : Nat → Nat) (embed1 embed2 : List Char → Option (List Int))
      (u1 u2 : Nat → Bool) (batchSize : Nat) (cs1 cs2 : List (List Char)),
      ((uploadChunksRun f embed1 u1 batchSize cs1).created.map Point.id
        = (List.range (uploadChunksRun f embed1 u1 batchSize cs1).created.length).map f)
      ∧ ((uploadDataRun f embed1 u1 cs1).created.map Point.id
        = (List.range (uploadDataRun f embed1 u1 cs1).created.length).map f)
      ∧ (cs1.length = cs2.length → (∀ c ∈ cs1, (embed1 c).isSome = true) →
          (∀ c ∈ cs2, (embed2 c).isSome = true) →
          (uploadChunksRun f embed1 u1 batchSize cs1).created.map Point.id
            = (uploadChunksRun f embed2 u2 batchSize cs2).created.map Point.id)
      ∧ ((∀ i j, f i ≠ g j) →
          ∀ p ∈ (uploadChunksRun f embed1 u1 batchSize cs1).created,
          ∀ q ∈ (uploadChunksRun g embed2 u2 batchSize cs2).created, p.id ≠ q.id)
      ∧ (∀ p ∈ (uploadChunksRun f embed1 u1 batchSize cs1).calls.flatten,
          p ∈ (uploadChunksRun f embed1 u1 batchSize cs1).created)
      ∧ (∀ p ∈ (uploadDataRun f embed1 u1 cs1).calls.flatten,
          p ∈ (uploadDataRun f embed1 u1 cs1).created) := by
  intro f g embed1 embed2 u1 u2 batchSize cs1 cs2
  refine ⟨uploadChunksRun_created_ids f embed1 u1 batchSize cs1,
    uploadDataRun_created_ids f embed1 u1 cs1, ?_, ?_, ?_, uploadDataRun_persisted f embed1 u1 cs1⟩
  · intro hlen hall1 hall2
    rw [uploadChunksRun_created_ids f embed1 u1 batchSize cs1,
      uploadChunksRun_created_ids f embed2 u2 batchSize cs2,
      uploadChunksRun_created_length f embed1 u1 batchSize cs1 hall1,
      uploadChunksRun_created_length f embed2 u2 batchSize cs2 hall2, hlen]
  · intro hdisj p hp q hq
    have hpid : p.id ∈ (uploadChunksRun f embed1 u1 batchSize cs1).created.map Point.id :=
      List.mem_map_of_mem Point.id hp
    have hqid : q.id ∈ (uploadChunksRun g embed2 u2 batchSize cs2).created.map Point.id :=
      List.mem_map_of_mem Point.id hq
    rw [uploadChunksRun_created_ids f embed1 u1 batchSize cs1] at hpid
    rw [uploadChunksRun_created_ids g embed2 u2 batchSize cs2] at hqid
    rcases List.mem_map.mp hpid with ⟨a, _, ha⟩
    rcases List.mem_map.mp hqid with ⟨b, _, hb⟩
    rw [← ha, ← hb]
    exact hdisj a b
  · intro p hp
    rw [← uploadChunksRun_flatten f embed1 u1 batchSize cs1]
    exact hp

/-- Witness for C10 at concrete inputs: two one-chunk runs over different
texts with supplies `0,0,0,...` and `1,1,1,...`. -/
theorem C10_fresh_random_ids_witness :
    (["aaa".data] : List (List Char)).length = (["bbb".data] : List (List Char)).length
    ∧ (∀ c ∈ (["aaa".data] : List (List Char)),
        ((fun _ : List Char => some ([] : List Int)) c).isSome = true)
    ∧ (∀ c ∈ (["bbb".data] : List (List Char)),
        ((fun _ : List Char => some ([] : List Int)) c).isSome = true)
    ∧ (∀ i j : Nat, (fun _ : Nat => 0) i ≠ (fun _ : Nat => 1) j)
    ∧ ((uploadChunksRun (fun _ => 0) (fun _ => some []) (fun _ => true) 50
          ["aaa".data]).created.map Point.id
        = (List.range (uploadChunksRun (fun _ => 0) (fun _ => some []) (fun _ => true) 50
            ["aaa".data]).created.length).map (fun _ => 0))
    ∧ ((uploadChunksRun (fun _ => 0) (fun _ => some []) (fun _ => true) 50
          ["aaa".data]).created.map Point.id
        = (uploadChunksRun (fun _ => 0) (fun _ => some []) (fun _ => true) 50
            ["bbb".data]).created.map Point.id)
    ∧ (∀ p ∈ (uploadChunksRun (fun _ => 0) (fun _ => some []) (fun _ => true) 50
          ["aaa".data]).created,
       ∀ q ∈ (uploadChunksRun (fun _ => 1) (fun _ => some []) (fun _ => true) 50
          ["bbb".data]).created, p.id ≠ q.id) :=
  have h := C10_fresh_random_ids (fun _ => 0) (fun _ => 1) (fun _ => some []) (fun _ => some [])
    (fun _ => true) (fun _ => true) 50 ["aaa".data] ["bbb".data]
  ⟨rfl, by decide, by decide, fun i j => Nat.zero_ne_one,
   h.1, h.2.2.1 rfl (by decide) (by decide), h.2.2.2.1 (fun i j => Nat.zero_ne_one)⟩
